import Mathlib

/-!
Verification of the panel-construction pipeline (`data_utils.py`) and the
Gurobi model wrapper (`grbmodel.py`) of the repository.

Numeric values are modelled as rationals (`ℚ`); a pandas `NaN` / missing
cell is modelled as `Option.none`.  Timestamps are modelled by `TimeVal`:
a numeric value together with a flag recording whether the value has been
coerced by `pd.to_datetime` (the coercion in `align_time_series_fast`
overwrites the caller's column in place).
-/

/-- A timestamp: its numeric value, and whether it has been coerced to a
datetime (`pd.to_datetime`). -/
structure TimeVal where
  val : Nat
  isDatetime : Bool
deriving DecidableEq, Repr

/-- `pd.to_datetime` on a single timestamp: the temporal value is kept,
the representation becomes datetime. -/
def TimeVal.to_datetime (t : TimeVal) : TimeVal := ⟨t.val, true⟩

/-- A row of the long-format table used by `align_time_series_fast` and
`pivot_features_and_costs`: an `open_time`, a `symbol`, and a partial
assignment of values to the remaining (numeric) columns.  `none` models a
missing value (NaN). -/
structure ARow where
  time : TimeVal
  symbol : String
  vals : String → Option ℚ

/-- Distinct elements of a list in first-appearance order
(pandas `Series.unique`).  `List.dedup` keeps last occurrences, so we
reverse around it. -/
def uniqueFirst {α : Type} [DecidableEq α] (l : List α) : List α :=
  (l.reverse.dedup).reverse

/-- Detects a duplicated key in a list (used for the duplicate
`(open_time, symbol)` checks of both pipeline functions). -/
def dupKeysAux {α : Type} [DecidableEq α] : List α → Bool
  | [] => false
  | k :: rest => decide (k ∈ rest) || dupKeysAux rest

/-- `true` iff the table has two rows with the same `(open_time, symbol)`
key. -/
def hasDupKeys (df : List ARow) : Bool :=
  dupKeysAux (df.map (fun r => (r.time, r.symbol)))

/-! ### `align_time_series_fast` (`data_utils.py`, lines 5–42)

The function first executes `df['open_time'] = pd.to_datetime(df['open_time'])`,
an in-place mutation of the caller's frame.  It then builds the Cartesian
product of the distinct timestamps (appearance order) and distinct symbols
(appearance order), reindexes the keyed input onto that product — a pandas
`reindex` that raises `ValueError: cannot reindex on an axis with duplicate
labels` whenever the `(open_time, symbol)` index is not unique — applies
`groupby(level='symbol').ffill()` (forward fill along the row order of the
product, per symbol), replaces the remaining missing cells by `fill_value`,
and sorts the result by `(symbol, open_time)`.

The embedding returns the pair (result-or-error, state of the caller's
table after the call), making the in-place coercion observable. -/

/-- In-place coercion of the `open_time` column (`pd.to_datetime`). -/
def coerceTimes (df : List ARow) : List ARow :=
  df.map (fun r => { r with time := r.time.to_datetime })

/-- Lookup of the unique row keyed `(t, s)` after `set_index`/`reindex`:
the cell function of that row, or all-missing when the combination has no
source row. -/
def obsCell (df1 : List ARow) (t : TimeVal) (s : String) : String → Option ℚ :=
  fun c => (df1.find? (fun r => decide (r.time = t ∧ r.symbol = s))).bind
    (fun r => r.vals c)

/-- `groupby(level='symbol').ffill()` along one symbol's cell sequence:
each missing cell takes the nearest previous non-missing value of the same
column (within this symbol only), `last` being the cells before the start
(none, at the head of the group). -/
def ffillGo (last : String → Option ℚ) :
    List (String → Option ℚ) → List (String → Option ℚ)
  | [] => []
  | cf :: rest =>
    let merged : String → Option ℚ := fun c =>
      match cf c with
      | some v => some v
      | none => last c
    merged :: ffillGo merged rest

/-- Ordering used by the final `sort_values(['symbol', 'open_time'])`:
lexicographic on the symbol's character list (the string order), then by
time.  (Stated on `String.toList` so that the order evaluates by kernel
reduction.) -/
def panelLE (a b : ARow) : Prop :=
  a.symbol.toList < b.symbol.toList
    ∨ (a.symbol = b.symbol ∧ a.time.val ≤ b.time.val)

instance : DecidableRel panelLE := fun a b => by
  unfold panelLE; infer_instance

instance : IsTotal ARow panelLE where
  total a b := by
    rcases lt_trichotomy a.symbol.toList b.symbol.toList with h | h | h
    · exact Or.inl (Or.inl h)
    · have hs : a.symbol = b.symbol := String.ext h
      rcases le_total a.time.val b.time.val with h2 | h2
      · exact Or.inl (Or.inr ⟨hs, h2⟩)
      · exact Or.inr (Or.inr ⟨hs.symm, h2⟩)
    · exact Or.inr (Or.inl h)

instance : IsTrans ARow panelLE where
  trans a b c hab hbc := by
    rcases hab with hab | ⟨hab, hab2⟩
    · rcases hbc with hbc | ⟨hbc, _⟩
      · exact Or.inl (lt_trans hab hbc)
      · exact Or.inl (hbc ▸ hab)
    · rcases hbc with hbc | ⟨hbc, hbc2⟩
      · exact Or.inl (hab ▸ hbc)
      · exact Or.inr ⟨hab.trans hbc, le_trans hab2 hbc2⟩

/-- `sort_values(['symbol', 'open_time'])`. -/
def sortPanel (l : List ARow) : List ARow := List.insertionSort panelLE l

/-- The alignment proper (the code after the reindex succeeded):
product grid, per-symbol forward fill (in the appearance order of the
distinct timestamps), default fill, sort. -/
def alignCore (df1 : List ARow) (fill_method : String) (fill_value : ℚ) :
    List ARow :=
  let all_times := uniqueFirst (df1.map (fun r => r.time))
  let all_symbols := uniqueFirst (df1.map (fun r => r.symbol))
  sortPanel (all_symbols.flatMap (fun s =>
    let cells := all_times.map (fun t => obsCell df1 t s)
    let filled := if fill_method = "ffill" then ffillGo (fun _ => none) cells
                  else cells
    List.zipWith
      (fun t cf => { time := t, symbol := s,
                     vals := fun c => some ((cf c).getD fill_value) : ARow })
      all_times filled))

/-- `align_time_series_fast`.  First component: the returned panel, or an
error when the pandas `reindex` raises on a duplicated
`(open_time, symbol)` key.  Second component: the caller's table after the
call (its `open_time` column has been coerced in place either way). -/
def align_time_series_fast (df : List ARow) (fill_method : String)
    (fill_value : ℚ) : Except Unit (List ARow) × List ARow :=
  let df1 := coerceTimes df
  if hasDupKeys df1 then (Except.error (), df1)
  else (Except.ok (alignCore df1 fill_method fill_value), df1)

/-- Cell of a returned panel at key `(t, s)`, column `c`. -/
def panelCell (p : List ARow) (t : TimeVal) (s c : String) : Option ℚ :=
  (p.find? (fun r => decide (r.time = t ∧ r.symbol = s))).bind
    (fun r => r.vals c)

/-! ### `GroupMinMaxScaler` (`data_utils.py`, lines 98–157)

Rows seen by the scaler carry a group key (the `group_by_column`, `symbol`
in the pipeline) and total numeric values — the scaler runs downstream of
the aligner, whose output has every cell resolved.  The automatic
numeric-column selection of `fit` (a dtype inspection) is outside the
numeric model: `target_columns` is always given explicitly. -/

/-- A row of the table seen by the scaler. -/
structure SRow where
  group : String
  vals : String → ℚ

/-- The scaler object.  `mins`, `maxs`, `ranges` are the per-group
statistic tables assigned by `fit` (empty before `fit`), keyed by the
group value, each entry mapping a column name to the statistic. -/
structure GroupMinMaxScaler where
  feature_min : ℚ
  feature_max : ℚ
  target_columns : List String
  mins : List (String × (String → ℚ)) := []
  maxs : List (String × (String → ℚ)) := []
  ranges : List (String × (String → ℚ)) := []

/-- `self.feature_span = self.feature_max - self.feature_min`. -/
def GroupMinMaxScaler.feature_span (sc : GroupMinMaxScaler) : ℚ :=
  sc.feature_max - sc.feature_min

/-- The distinct group keys of a table (`groupby` groups). -/
def groupsOf (df : List SRow) : List String :=
  uniqueFirst (df.map (fun r => r.group))

/-- `groupby(...)[c].min()` for one group: minimum of column `c` over the
rows of the group (the group is nonempty whenever it comes from
`groupsOf`; the `[]` case is unreachable there). -/
def colMinIn (rows : List SRow) (c : String) : ℚ :=
  match rows with
  | [] => 0
  | r :: rs => rs.foldl (fun m r2 => min m (r2.vals c)) (r.vals c)

/-- `groupby(...)[c].max()` for one group. -/
def colMaxIn (rows : List SRow) (c : String) : ℚ :=
  match rows with
  | [] => 0
  | r :: rs => rs.foldl (fun m r2 => max m (r2.vals c)) (r.vals c)

/-- `fit`: computes the per-group `min`, `max` and `range = max - min`
tables and stores them on the scaler. -/
def GroupMinMaxScaler.fit (sc : GroupMinMaxScaler) (df : List SRow) :
    GroupMinMaxScaler :=
  let gs := groupsOf df
  { sc with
    mins := gs.map (fun g =>
      (g, fun c => colMinIn (df.filter (fun r => decide (r.group = g))) c)),
    maxs := gs.map (fun g =>
      (g, fun c => colMaxIn (df.filter (fun r => decide (r.group = g))) c)),
    ranges := gs.map (fun g =>
      (g, fun c => colMaxIn (df.filter (fun r => decide (r.group = g))) c
                 - colMinIn (df.filter (fun r => decide (r.group = g))) c)) }

/-- Row lookup in a statistic table (the left merge on the group key). -/
def lookupTbl (tbl : List (String × (String → ℚ))) (g : String) :
    Option (String → ℚ) :=
  (tbl.find? (fun p => decide (p.1 = g))).map (fun p => p.2)

/-- The scaling formula applied to one cell:
`(x - min) / range * span + feature_min`, where a zero range goes through
`replace(0, nan)` / `divide` / `fillna(feature_min)` and therefore yields
exactly `feature_min`. -/
def scaledVal (sc : GroupMinMaxScaler) (mn rg x : ℚ) : ℚ :=
  if rg = 0 then sc.feature_min
  else (x - mn) / rg * sc.feature_span + sc.feature_min

/-- `transform`: merges the fitted statistics onto each row by group key —
a group key absent from the tables receives `feature_min` as its min row
and `feature_span` as its range row (the two `fillna` defaults) — and
applies the formula to every target column.  The receiver scaler is read,
never written. -/
def GroupMinMaxScaler.transform (sc : GroupMinMaxScaler) (df : List SRow) :
    List SRow :=
  df.map (fun r =>
    let mn : String → ℚ :=
      match lookupTbl sc.mins r.group with
      | some f => f
      | none => fun _ => sc.feature_min
    let rg : String → ℚ :=
      match lookupTbl sc.ranges r.group with
      | some f => f
      | none => fun _ => sc.feature_span
    { r with vals := fun c =>
        if c ∈ sc.target_columns then scaledVal sc (mn c) (rg c) (r.vals c)
        else r.vals c })

/-- `transform` as a state transformer on the scaler object: the method
body assigns no attribute of `self`, so the outgoing scaler state is the
incoming one. -/
def GroupMinMaxScaler.transformS (sc : GroupMinMaxScaler) (df : List SRow) :
    List SRow × GroupMinMaxScaler :=
  (sc.transform df, sc)

/-- `fit_transform`. -/
def GroupMinMaxScaler.fit_transform (sc : GroupMinMaxScaler)
    (df : List SRow) : List SRow :=
  (sc.fit df).transform df

/-- The scaler state after a sequence of `transform` calls. -/
def scalerAfterCalls (sc : GroupMinMaxScaler) (dfs : List (List SRow)) :
    GroupMinMaxScaler :=
  dfs.foldl (fun s d => (s.transformS d).2) sc

/-! ### `pivot_features_and_costs` (`data_utils.py`, lines 162–213)

`pivot_table(values=v, index="open_time", columns="symbol",
aggfunc="first")` groups the rows by `(open_time, symbol)`, keeps the
first non-missing value of each group (input order), and drops every
`(time, symbol)` group whose aggregate is missing; a time (symbol)
appears in the pivot's index (columns) iff some row carries a value of
`v` at that time (symbol).  Index and columns come out sorted.  The cost
pivot fixes `unique_times` / `unique_symbols`; each feature pivot is
column-reindexed onto `unique_symbols` (its rows are not reindexed), its
missing cells are replaced by zero, and `np.stack` requires all feature
matrices to have one common shape. -/

/-- Ordering of the pivot's time index. -/
def timeLE (a b : TimeVal) : Prop := a.val ≤ b.val

instance : DecidableRel timeLE := fun a b => by
  unfold timeLE; infer_instance

/-- Sorted distinct timestamps of the table. -/
def sortedTimes (df : List ARow) : List TimeVal :=
  List.insertionSort timeLE (uniqueFirst (df.map (fun r => r.time)))

/-- Sorted distinct symbols of the table. -/
def sortedSymbols (df : List ARow) : List String :=
  List.insertionSort (fun a b => a.toList ≤ b.toList)
    (uniqueFirst (df.map (fun r => r.symbol)))

/-- Aggregated cell of `pivot_table(values=v, aggfunc="first")` at key
`(t, s)`: the first non-missing value of column `v` among the rows with
that key, in input order. -/
def pivotCell (df : List ARow) (v : String) (t : TimeVal) (s : String) :
    Option ℚ :=
  (df.filter (fun r => decide (r.time = t ∧ r.symbol = s))).findSome?
    (fun r => r.vals v)

/-- Row index of the pivot of column `v`: the sorted distinct times at
which some row carries a value of `v` (all-missing times are dropped by
the pivot). -/
def pivotRowIndex (df : List ARow) (v : String) : List TimeVal :=
  (sortedTimes df).filter
    (fun t => df.any (fun r => decide (r.time = t) && (r.vals v).isSome))

/-- Column index of the pivot of column `v`. -/
def pivotColIndex (df : List ARow) (v : String) : List String :=
  (sortedSymbols df).filter
    (fun s => df.any (fun r => decide (r.symbol = s) && (r.vals v).isSome))

/-- The cost matrix: cost pivot, sorted, missing cells filled with `0`. -/
def costsMatrix (df : List ARow) (y : String) : List (List ℚ) :=
  (pivotRowIndex df y).map (fun t =>
    (pivotColIndex df y).map (fun s => (pivotCell df y t s).getD 0))

/-- `reindex(columns=target)` of one pivot row whose own column index is
`own`: a column kept from `own` keeps its cell, an inserted column is
missing. -/
def reindexTo (target own : List String) (cellf : String → Option ℚ) :
    List (Option ℚ) :=
  target.map (fun s => if s ∈ own then cellf s else none)

/-- One feature matrix: pivot of column `x`, rows its own time index,
columns reindexed onto the cost pivot's symbols, then `fillna(0)`. -/
def featureMat (df : List ARow) (y x : String) : List (List ℚ) :=
  (pivotRowIndex df x).map (fun t =>
    (reindexTo (pivotColIndex df y) (pivotColIndex df x)
      (pivotCell df x t)).map (fun o => o.getD 0))

/-- Shape check of `np.stack`: at least one matrix, and all matrices with
the same number of rows (their widths already agree by construction). -/
def sameShape (mats : List (List (List ℚ))) : Bool :=
  match mats with
  | [] => false
  | m :: rest => rest.all (fun m2 => m2.length == m.length)

/-- `np.stack(mats, axis=2)`: `features[t][n][k] = mats[k][t][n]`. -/
def stackFeatures (mats : List (List (List ℚ))) (rows cols : Nat) :
    List (List (List ℚ)) :=
  (List.range rows).map (fun i =>
    (List.range cols).map (fun j =>
      mats.map (fun m => (m.getD i []).getD j 0)))

/-- `pivot_features_and_costs`.  First component: whether the duplicate
`(open_time, symbol)` warning was printed.  Second component: the tensor
bundle `(features, costs, times, symbols)`, or `none` when `np.stack`
raises on inconsistent feature-matrix shapes (or an empty feature list). -/
def pivot_features_and_costs (df : List ARow) (y : String)
    (x_cols : List String) :
    Bool × Option (List (List (List ℚ)) × List (List ℚ) ×
                   List TimeVal × List String) :=
  let warn := hasDupKeys df
  let unique_times := pivotRowIndex df y
  let unique_symbols := pivotColIndex df y
  let costs := costsMatrix df y
  let mats := x_cols.map (fun x => featureMat df y x)
  if sameShape mats then
    (warn, some (stackFeatures mats
        (match mats with | [] => 0 | m :: _ => m.length)
        unique_symbols.length,
      costs, unique_times, unique_symbols))
  else (warn, none)

/-! ### `optGrbModel` (`grbmodel.py`)

The Gurobi session owned by a model (`self._model`) lives in a heap of
sessions; an `optGrbModel` holds the index of its session.  A session
carries the decision-variable count, the variable bounds (`none` = an
infinite bound) and the named linear `≤`-constraints.  The solver engine
itself (`optimize`, the solution values, and the IIS attributes
`IISConstr` / `IISLB` / `IISUB` written by `computeIIS`) is external to
the repository and is abstracted as a `GrbEngine`; the theorems hypothesise
of it exactly what Gurobi documents: on an infeasible model the marked
members (constraints and bounds) form a minimal infeasible subsystem. -/

/-- A Gurobi session: variables with bounds, and named linear
`coefs · x ≤ rhs` constraints. -/
structure GrbState where
  numVars : Nat
  lb : List (Option ℚ)
  ub : List (Option ℚ)
  constrs : List (String × List ℚ × ℚ)
deriving DecidableEq, Repr

/-- The wrapper object: the index of its session and the number of
decision variables (`num_cost`, the size of `self.x`). -/
structure OptGrbModel where
  sid : Nat
  num_cost : Nat
deriving DecidableEq, Repr

/-- Terminal solver status. -/
inductive GrbStatus where
  | optimal
  | infeasible
  | unbounded
  | other
deriving DecidableEq, Repr

/-- The external solver engine (GurobiPy).  `iisConstr st n` is the
`IISConstr` attribute of the constraint named `n` after `computeIIS`;
`iisLB` / `iisUB` are the bound attributes `IISLB` / `IISUB` of variable
`i`. -/
structure GrbEngine where
  optimize : GrbState → GrbStatus
  solution : GrbState → List ℚ × ℚ
  iisConstr : GrbState → String → Bool
  iisLB : GrbState → Nat → Bool
  iisUB : GrbState → Nat → Bool

/-- Inner product of a coefficient row with the variable values. -/
def dotProd (a x : List ℚ) : ℚ :=
  (a.zip x).foldl (fun acc p => acc + p.1 * p.2) 0

/-- The IIS members that are linear constraints (rows of `getConstrs()`
whose `IISConstr` attribute is set). -/
def markedConstrs (E : GrbEngine) (st : GrbState) :
    List (String × List ℚ × ℚ) :=
  st.constrs.filter (fun c => E.iisConstr st c.1)

/-- The IIS members that are lower bounds. -/
def markedLBs (E : GrbEngine) (st : GrbState) : List Nat :=
  (List.range st.numVars).filter (fun i => E.iisLB st i)

/-- The IIS members that are upper bounds. -/
def markedUBs (E : GrbEngine) (st : GrbState) : List Nat :=
  (List.range st.numVars).filter (fun i => E.iisUB st i)

/-- The constraint names printed by the `solve` loop
(`for c in getConstrs(): if c.IISConstr: print(c.ConstrName)`). -/
def iisConstrNames (E : GrbEngine) (st : GrbState) : List String :=
  (markedConstrs E st).map (fun c => c.1)

/-- Feasibility of a subsystem of a session: a point within the selected
bounds satisfying the selected constraints. -/
def SysFeasible (st : GrbState) (cs : List (String × List ℚ × ℚ))
    (lbs ubs : List Nat) : Prop :=
  ∃ x : List ℚ, x.length = st.numVars ∧
    (∀ c ∈ cs, dotProd c.2.1 x ≤ c.2.2) ∧
    (∀ i ∈ lbs, ∀ b, st.lb.get? i = some (some b) → b ≤ x.getD i 0) ∧
    (∀ i ∈ ubs, ∀ b, st.ub.get? i = some (some b) → x.getD i 0 ≤ b)

/-- The engine's marked members form a minimal infeasible subsystem:
jointly infeasible, and feasible after removing any single member
(Gurobi's documented contract for `computeIIS`). -/
def IsIIS (E : GrbEngine) (st : GrbState) : Prop :=
  ¬ SysFeasible st (markedConstrs E st) (markedLBs E st) (markedUBs E st) ∧
  (∀ c ∈ markedConstrs E st,
    SysFeasible st ((markedConstrs E st).erase c) (markedLBs E st)
      (markedUBs E st)) ∧
  (∀ i ∈ markedLBs E st,
    SysFeasible st (markedConstrs E st) ((markedLBs E st).erase i)
      (markedUBs E st)) ∧
  (∀ i ∈ markedUBs E st,
    SysFeasible st (markedConstrs E st) (markedLBs E st)
      ((markedUBs E st).erase i))

/-- `copy`: a shallow object copy whose `_model` is replaced by an
independent duplicate of the receiver's session (a fresh heap slot).  An
invalid session index leaves everything unchanged (unreachable from a
well-formed model). -/
def OptGrbModel.copy (m : OptGrbModel) (σ : List GrbState) :
    OptGrbModel × List GrbState :=
  match σ.get? m.sid with
  | some st => ({ m with sid := σ.length }, σ ++ [st])
  | none => (m, σ)

/-- Replace the session at index `i`. -/
def heapModify (σ : List GrbState) (i : Nat) (f : GrbState → GrbState) :
    List GrbState :=
  match σ.get? i with
  | some st => σ.set i (f st)
  | none => σ

/-- `addConstr`: length validation, `copy`, then
`new_model._model.addConstr(coefs · x ≤ rhs)` on the clone's session.  The
new constraint gets the next auto-generated row name. -/
def OptGrbModel.addConstr (m : OptGrbModel) (coefs : List ℚ) (rhs : ℚ)
    (σ : List GrbState) : Except String (OptGrbModel × List GrbState) :=
  if coefs.length ≠ m.num_cost then
    Except.error "Size of coef vector cannot cost."
  else
    let p := m.copy σ
    Except.ok (p.1, heapModify p.2 p.1.sid (fun st =>
      { st with constrs := st.constrs ++
          [("R" ++ toString st.constrs.length, coefs, rhs)] }))

/-- `solve`: optimize, inspect the status; on `INFEASIBLE` compute the
IIS, print the implicated constraint names and raise — the error value
carries exactly the printed names; otherwise read back
`(solution, objective)`. -/
def OptGrbModel.solve (E : GrbEngine) (σ : List GrbState)
    (m : OptGrbModel) : Except (List String) (List ℚ × ℚ) :=
  match σ.get? m.sid with
  | none => Except.error []
  | some st =>
    match E.optimize st with
    | GrbStatus.infeasible => Except.error (iisConstrNames E st)
    | _ => Except.ok (E.solution st)

/-! ## Helper lemmas -/

theorem mem_uniqueFirst {α : Type} [DecidableEq α] {x : α} {l : List α} :
    x ∈ uniqueFirst l ↔ x ∈ l := by
  simp [uniqueFirst, List.mem_reverse, List.mem_dedup]

theorem nodup_uniqueFirst {α : Type} [DecidableEq α] (l : List α) :
    (uniqueFirst l).Nodup :=
  List.nodup_reverse.mpr (List.nodup_dedup l.reverse)

theorem dupKeysAux_of_append {α : Type} [DecidableEq α]
    (l1 : List α) (k : α) (l2 : List α) (h : k ∈ l2) :
    dupKeysAux (l1 ++ k :: l2) = true := by
  induction l1 with
  | nil => simp [dupKeysAux, h]
  | cons a tl ih => simp [dupKeysAux, ih]

theorem find?_keyTable_eq_none {β : Type} (gs : List String)
    (f : String → β) (g : String) (h : g ∉ gs) :
    (gs.map (fun g2 => (g2, f g2))).find? (fun p => decide (p.1 = g))
      = none := by
  induction gs with
  | nil => rfl
  | cons a tl ih =>
    have ha : a ≠ g := fun he => h (he ▸ List.mem_cons_self a tl)
    have htl : g ∉ tl := fun hm => h (List.mem_cons_of_mem _ hm)
    simpa [List.find?_cons, ha] using ih htl

theorem find?_keyTable_eq_some {β : Type} (gs : List String)
    (f : String → β) (g : String) (h : g ∈ gs) :
    (gs.map (fun g2 => (g2, f g2))).find? (fun p => decide (p.1 = g))
      = some (g, f g) := by
  induction gs with
  | nil => cases h
  | cons a tl ih =>
    by_cases hag : a = g
    · subst hag; simp [List.find?_cons]
    · have htl : g ∈ tl := by
        rcases List.mem_cons.mp h with h1 | h1
        · exact absurd h1.symm hag
        · exact h1
      simpa [List.find?_cons, hag] using ih htl

theorem foldl_min_const (l : List SRow) (c : String) (k : ℚ) :
    ∀ m, (∀ r ∈ l, r.vals c = k) → m = k →
    l.foldl (fun acc r2 => min acc (r2.vals c)) m = k := by
  induction l with
  | nil => intro m _ hm; simpa using hm
  | cons a tl ih =>
    intro m hl hm
    simp only [List.foldl_cons]
    refine ih _ (fun r hr => hl r (List.mem_cons_of_mem _ hr)) ?_
    rw [hl a (List.mem_cons_self a tl), hm, min_self]

theorem foldl_max_const (l : List SRow) (c : String) (k : ℚ) :
    ∀ m, (∀ r ∈ l, r.vals c = k) → m = k →
    l.foldl (fun acc r2 => max acc (r2.vals c)) m = k := by
  induction l with
  | nil => intro m _ hm; simpa using hm
  | cons a tl ih =>
    intro m hl hm
    simp only [List.foldl_cons]
    refine ih _ (fun r hr => hl r (List.mem_cons_of_mem _ hr)) ?_
    rw [hl a (List.mem_cons_self a tl), hm, max_self]

theorem colMinIn_const (rows : List SRow) (c : String) (k : ℚ)
    (h : ∀ r ∈ rows, r.vals c = k) (hne : rows ≠ []) :
    colMinIn rows c = k := by
  cases rows with
  | nil => exact absurd rfl hne
  | cons a tl =>
    exact foldl_min_const tl c k _
      (fun r hr => h r (List.mem_cons_of_mem _ hr))
      (h a (List.mem_cons_self a tl))

theorem colMaxIn_const (rows : List SRow) (c : String) (k : ℚ)
    (h : ∀ r ∈ rows, r.vals c = k) (hne : rows ≠ []) :
    colMaxIn rows c = k := by
  cases rows with
  | nil => exact absurd rfl hne
  | cons a tl =>
    exact foldl_max_const tl c k _
      (fun r hr => h r (List.mem_cons_of_mem _ hr))
      (h a (List.mem_cons_self a tl))

theorem lookupTbl_map_none (gs : List String) (f : String → String → ℚ)
    (g : String) (h : g ∉ gs) :
    lookupTbl (gs.map (fun g2 => (g2, f g2))) g = none := by
  simp [lookupTbl, find?_keyTable_eq_none gs f g h]

theorem lookupTbl_map_some (gs : List String) (f : String → String → ℚ)
    (g : String) (h : g ∈ gs) :
    lookupTbl (gs.map (fun g2 => (g2, f g2))) g = some (f g) := by
  simp [lookupTbl, find?_keyTable_eq_some gs f g h]

theorem fit_feature_min (sc : GroupMinMaxScaler) (df : List SRow) :
    (sc.fit df).feature_min = sc.feature_min := rfl

theorem fit_feature_span (sc : GroupMinMaxScaler) (df : List SRow) :
    (sc.fit df).feature_span = sc.feature_span := rfl

theorem fit_target_columns (sc : GroupMinMaxScaler) (df : List SRow) :
    (sc.fit df).target_columns = sc.target_columns := rfl

theorem fit_mins (sc : GroupMinMaxScaler) (df : List SRow) :
    (sc.fit df).mins = (groupsOf df).map (fun g =>
      (g, fun c => colMinIn (df.filter (fun r => decide (r.group = g))) c)) :=
  rfl

theorem fit_ranges (sc : GroupMinMaxScaler) (df : List SRow) :
    (sc.fit df).ranges = (groupsOf df).map (fun g =>
      (g, fun c => colMaxIn (df.filter (fun r => decide (r.group = g))) c
                 - colMinIn (df.filter (fun r => decide (r.group = g))) c)) :=
  rfl

/-! ## Claim theorems -/

/-- Concrete scaler for the unseen-group experiments: default feature
range `(-1, 1)`, one target column `"v"`. -/
def c1sc : GroupMinMaxScaler :=
  { feature_min := -1, feature_max := 1, target_columns := ["v"] }

/-- Fit table: a single group `"A"`. -/
def c1fitDf : List SRow := [⟨"A", fun _ => 0⟩]

/-- A transform-time row of group `"B"`, absent at fit time, with value
`10` in the target column. -/
def c1row : SRow := ⟨"B", fun c => if c = "v" then 10 else 0⟩

/-- C1, counterexample: a fitted `GroupMinMaxScaler` with feature range
`(-1, 1)` transforms a row whose group was absent at fit time to its
*original* value `10`, not to `feature_min = -1`: the default statistics
`min = feature_min`, `range = feature_span` make the formula collapse to
the identity, `(x - feature_min) / span * span + feature_min = x`. -/
theorem c1_counterexample :
    ((c1sc.fit c1fitDf).transform [c1row]).map (fun r => r.vals "v")
        = [10] ∧
    ((10 : ℚ) = c1sc.feature_min → False) := by
  have hAB : ("A" : String) = "B" ↔ False := by simp
  constructor
  · norm_num [GroupMinMaxScaler.transform, GroupMinMaxScaler.fit, c1sc,
      c1fitDf, c1row, lookupTbl, groupsOf, uniqueFirst, scaledVal,
      GroupMinMaxScaler.feature_span, colMinIn, colMaxIn, List.find?,
      List.dedup, List.filter, hAB]
  · norm_num [c1sc]

/-- C1, amended: transforming a row whose group key was absent at fit
time applies the formula with the default statistics
`min = feature_min`, `range = feature_span`; for every target column this
yields the row's original value unchanged — or `feature_min` in the
degenerate configuration `feature_span = 0` — and never an error. -/
theorem c1_unseen_group_passthrough
    (sc : GroupMinMaxScaler) (df df2 : List SRow) (g c : String)
    (r : SRow) (i : Nat)
    (hg : ∀ row ∈ df, row.group ≠ g)
    (hc : c ∈ sc.target_columns)
    (hi : df2.get? i = some r) (hr : r.group = g) :
    (((sc.fit df).transform df2).get? i).map (fun row => row.vals c)
      = some (if sc.feature_span = 0 then sc.feature_min else r.vals c) := by
  have hgnot : g ∉ groupsOf df := by
    intro hmem
    rcases List.mem_map.mp (mem_uniqueFirst.mp hmem) with ⟨row, hrow, hrg⟩
    exact hg row hrow hrg
  have hmins : lookupTbl (sc.fit df).mins r.group = none := by
    rw [hr, fit_mins]
    exact lookupTbl_map_none _ _ _ hgnot
  have hranges : lookupTbl (sc.fit df).ranges r.group = none := by
    rw [hr, fit_ranges]
    exact lookupTbl_map_none _ _ _ hgnot
  unfold GroupMinMaxScaler.transform
  rw [List.get?_map, hi]
  simp only [Option.map_some']
  simp only [hmins, hranges, fit_target_columns,
    fit_feature_min, fit_feature_span, if_pos hc]
  unfold scaledVal
  simp only [fit_feature_min, fit_feature_span]
  by_cases hspan : sc.feature_span = 0
  · rw [if_pos hspan, if_pos hspan]
  · rw [if_neg hspan, if_neg hspan,
      div_mul_cancel₀ _ hspan, sub_add_cancel]

/-- C1 witness: the amended statement applied to the concrete scaler,
fit table and unseen-group row above. -/
theorem c1_witness :
    (((c1sc.fit c1fitDf).transform [c1row]).get? 0).map
        (fun row => row.vals "v")
      = some (if c1sc.feature_span = 0 then c1sc.feature_min
              else c1row.vals "v") :=
  c1_unseen_group_passthrough c1sc c1fitDf [c1row] "B" "v" c1row 0
    (by decide) (by decide) rfl rfl

/-- C8: transforming any row whose target column was constant within its
group at fit time yields exactly `feature_min`: the stored range is `0`,
and the `replace(0, nan)` / `divide` / `fillna(feature_min)` chain maps a
zero range to `feature_min` — never a division by zero and never a NaN. -/
theorem c8_constant_column_feature_min
    (sc : GroupMinMaxScaler) (df df2 : List SRow) (g c : String) (k : ℚ)
    (r : SRow) (i : Nat)
    (hgrp : ∃ row ∈ df, row.group = g)
    (hconst : ∀ row ∈ df, row.group = g → row.vals c = k)
    (hc : c ∈ sc.target_columns)
    (hi : df2.get? i = some r) (hr : r.group = g) :
    (((sc.fit df).transform df2).get? i).map (fun row => row.vals c)
      = some sc.feature_min := by
  rcases hgrp with ⟨row0, hrow0, hrg0⟩
  have hgmem : g ∈ groupsOf df :=
    mem_uniqueFirst.mpr (List.mem_map.mpr ⟨row0, hrow0, hrg0⟩)
  have hrow0f : row0 ∈ df.filter (fun r2 => decide (r2.group = g)) :=
    List.mem_filter.mpr ⟨hrow0, by simp [hrg0]⟩
  have hne : df.filter (fun r2 => decide (r2.group = g)) ≠ [] :=
    List.ne_nil_of_mem hrow0f
  have hallk : ∀ r2 ∈ df.filter (fun r3 => decide (r3.group = g)),
      r2.vals c = k := by
    intro r2 hr2
    rcases List.mem_filter.mp hr2 with ⟨hr2df, hr2g⟩
    exact hconst r2 hr2df (by simpa using hr2g)
  have hmin := colMinIn_const _ c k hallk hne
  have hmax := colMaxIn_const _ c k hallk hne
  have hranges : lookupTbl (sc.fit df).ranges r.group
      = some (fun c2 => colMaxIn (df.filter (fun r2 => decide (r2.group = g))) c2
                      - colMinIn (df.filter (fun r2 => decide (r2.group = g))) c2) := by
    rw [hr, fit_ranges]
    exact lookupTbl_map_some _ _ _ hgmem
  unfold GroupMinMaxScaler.transform
  rw [List.get?_map, hi]
  simp only [Option.map_some']
  simp only [hranges, fit_target_columns, if_pos hc]
  unfold scaledVal
  simp only [hmin, hmax, sub_self, if_pos, fit_feature_min]

/-- Concrete scaler and table for the constant-column scenario: group
`"X"`, column `"volume"` constant at `5`. -/
def c8sc : GroupMinMaxScaler :=
  { feature_min := -1, feature_max := 1, target_columns := ["volume"] }

/-- Fit table for the constant-column scenario. -/
def c8df : List SRow :=
  [⟨"X", fun c => if c = "volume" then 5 else 0⟩,
   ⟨"X", fun c => if c = "volume" then 5 else 1⟩]

/-- A transform-time row of group `"X"`. -/
def c8row : SRow := ⟨"X", fun c => if c = "volume" then 5 else 2⟩

/-- C8 witness: the constant-column statement applied to the concrete
scenario (feature range `(-1, 1)`: the output is `-1`). -/
theorem c8_witness :
    (((c8sc.fit c8df).transform [c8row]).get? 0).map
        (fun row => row.vals "volume")
      = some c8sc.feature_min :=
  c8_constant_column_feature_min c8sc c8df [c8row] "X" "volume" 5 c8row 0
    (by decide) (by decide) (by decide) rfl rfl

/-- A `transform` call never writes the scaler: iterating the method as a
state transformer is the identity on the scaler object. -/
theorem scalerAfterCalls_id (sc : GroupMinMaxScaler)
    (dfs : List (List SRow)) : scalerAfterCalls sc dfs = sc := by
  induction dfs with
  | nil => rfl
  | cons d ds ih =>
    simp only [scalerAfterCalls, List.foldl_cons] at ih ⊢
    exact ih

/-- C9: the per-group statistics are computed by `fit` and are never
recomputed or modified by later `transform` calls — after any sequence of
`transform` calls on any tables the stored `mins` and `ranges` equal
those right after `fit`, and a further `transform` of any input returns
exactly what a `transform` right after `fit` returns. -/
theorem c9_stats_frozen (sc0 : GroupMinMaxScaler) (dft : List SRow)
    (dfs : List (List SRow)) (d : List SRow) :
    scalerAfterCalls (sc0.fit dft) dfs = sc0.fit dft ∧
    (scalerAfterCalls (sc0.fit dft) dfs).mins = (sc0.fit dft).mins ∧
    (scalerAfterCalls (sc0.fit dft) dfs).ranges = (sc0.fit dft).ranges ∧
    ((scalerAfterCalls (sc0.fit dft) dfs).transformS d).1
      = (sc0.fit dft).transform d := by
  have h := scalerAfterCalls_id (sc0.fit dft) dfs
  exact ⟨h, by rw [h], by rw [h], by rw [h]; rfl⟩

/-- Reduced form of `addConstr` on a valid model: the clone gets the
fresh session slot `σ.length`, holding the receiver's session extended
with the new row. -/
theorem addConstr_eq (m : OptGrbModel) (coefs : List ℚ) (rhs : ℚ)
    (σ : List GrbState) (st : GrbState)
    (hst : σ.get? m.sid = some st) (hlen : coefs.length = m.num_cost) :
    m.addConstr coefs rhs σ = Except.ok ({ m with sid := σ.length },
      (σ ++ [st]).set σ.length
        { st with constrs := st.constrs ++
            [("R" ++ toString st.constrs.length, coefs, rhs)] }) := by
  unfold OptGrbModel.addConstr OptGrbModel.copy heapModify
  rw [if_neg (fun hne => hne hlen), hst]
  have hget : (σ ++ [st]).get? σ.length = some st := by
    simp [List.get?_append_right, Nat.le_refl]
  simp only [hget]

/-- C3: `addConstr` (with a coefficient vector of valid length) returns a
new model instance — a fresh session index — and never mutates the
receiver: the receiver's session is untouched, so re-solving the parent
under any solver engine yields the identical `(solution, objective)`
before and after the call. -/
theorem c3_addConstr_frame (m m2 : OptGrbModel) (σ σ2 : List GrbState)
    (coefs : List ℚ) (rhs : ℚ)
    (hval : m.sid < σ.length)
    (hok : m.addConstr coefs rhs σ = Except.ok (m2, σ2)) :
    σ2.get? m.sid = σ.get? m.sid ∧ m2.sid ≠ m.sid ∧
    ∀ E : GrbEngine, OptGrbModel.solve E σ2 m = OptGrbModel.solve E σ m := by
  have hlen : coefs.length = m.num_cost := by
    by_contra hne
    unfold OptGrbModel.addConstr at hok
    rw [if_pos hne] at hok
    cases hok
  have hst : σ.get? m.sid = some (σ.get ⟨m.sid, hval⟩) := List.get?_eq_get hval
  rw [addConstr_eq m coefs rhs σ _ hst hlen] at hok
  injection hok with hok
  have hm2 : m2 = { m with sid := σ.length } := (congrArg Prod.fst hok).symm
  have hσ2 : σ2 = (σ ++ [σ.get ⟨m.sid, hval⟩]).set σ.length
      { σ.get ⟨m.sid, hval⟩ with
        constrs := (σ.get ⟨m.sid, hval⟩).constrs ++
          [("R" ++ toString (σ.get ⟨m.sid, hval⟩).constrs.length,
            coefs, rhs)] } := (congrArg Prod.snd hok).symm
  have hne : σ.length ≠ m.sid := Nat.ne_of_gt hval
  have hkey : σ2.get? m.sid = σ.get? m.sid := by
    rw [hσ2, List.get?_set_ne _ _ hne, List.get?_append hval]
  refine ⟨hkey, ?_, ?_⟩
  · rw [hm2]
    exact hne
  · intro E
    unfold OptGrbModel.solve
    rw [hkey]

/-- Session of the base 1-variable model used for the frame witness (one
budget row `x ≤ 1`, bound `x ≥ 0`). -/
def c3St : GrbState :=
  { numVars := 1, lb := [some 0], ub := [none],
    constrs := [("budget", [1], 1)] }

/-- The base model bound to that session. -/
def c3Model : OptGrbModel := { sid := 0, num_cost := 1 }

/-- Session produced for the clone by `addConstr [1] (1/2)`. -/
def c3StAdd : GrbState :=
  { numVars := 1, lb := [some 0], ub := [none],
    constrs := [("budget", [1], 1), ("R1", [1], 1/2)] }

/-- An engine whose answers depend on the session content (so the
equality of parent solves below is not vacuous). -/
def c3Engine : GrbEngine :=
  { optimize := fun _ => GrbStatus.optimal,
    solution := fun st => ([(st.constrs.length : ℚ)], (st.constrs.length : ℚ)),
    iisConstr := fun _ _ => false,
    iisLB := fun _ _ => false,
    iisUB := fun _ _ => false }

/-- C3 witness: the frame statement applied to the concrete base model,
constraining the clone by `x ≤ 1/2`. -/
theorem c3_witness :
    ([c3St, c3StAdd].get? c3Model.sid = [c3St].get? c3Model.sid) ∧
    ({ sid := 1, num_cost := 1 } : OptGrbModel).sid ≠ c3Model.sid ∧
    OptGrbModel.solve c3Engine [c3St, c3StAdd] c3Model
      = OptGrbModel.solve c3Engine [c3St] c3Model := by
  have h := c3_addConstr_frame c3Model { sid := 1, num_cost := 1 }
    [c3St] [c3St, c3StAdd] [1] (1/2) (by decide) rfl
  exact ⟨h.1, h.2.1, h.2.2 c3Engine⟩

/-- C6, amended: on an infeasible terminal status `solve` always raises
(never returns a solution); the error enumerates the names of exactly
those members of the minimal infeasible subsystem that are linear
constraints — a non-empty list whenever the subsystem contains at least
one linear constraint (but empty when the subsystem consists solely of
variable bounds, which the printing loop over `getConstrs()` skips). -/
theorem c6_infeasible_raises (E : GrbEngine) (σ : List GrbState)
    (m : OptGrbModel) (st : GrbState)
    (hst : σ.get? m.sid = some st)
    (hinf : E.optimize st = GrbStatus.infeasible)
    (hiis : IsIIS E st) :
    OptGrbModel.solve E σ m = Except.error (iisConstrNames E st) ∧
    (∀ r2, OptGrbModel.solve E σ m ≠ Except.ok r2) ∧
    (markedConstrs E st ≠ [] → iisConstrNames E st ≠ []) ∧
    (∀ n ∈ iisConstrNames E st, ∃ cst ∈ st.constrs,
      cst.1 = n ∧ E.iisConstr st cst.1 = true) := by
  have hsolve : OptGrbModel.solve E σ m
      = Except.error (iisConstrNames E st) := by
    unfold OptGrbModel.solve
    rw [hst]
    simp only [hinf]
  refine ⟨hsolve, ?_, ?_, ?_⟩
  · intro r2 hok
    rw [hsolve] at hok
    cases hok
  · intro hmark hnil
    exact hmark (List.map_eq_nil.mp hnil)
  · intro n hn
    rcases List.mem_map.mp hn with ⟨cst, hcst, rfl⟩
    rcases List.mem_filter.mp hcst with ⟨hmem, hflag⟩
    exact ⟨cst, hmem, rfl, hflag⟩

/-- Session refuting the non-emptiness part of C6: one variable with
contradictory bounds `1 ≤ x ≤ 0` plus one linear row (`x ≤ 5`) that is
*not* part of the conflict. -/
def c6State : GrbState :=
  { numVars := 1, lb := [some 1], ub := [some 0],
    constrs := [("cap", [1], 5)] }

/-- Engine for that session: infeasible, with `computeIIS` marking the
two bounds and no linear constraint (the bounds alone are the minimal
infeasible subsystem). -/
def c6Engine : GrbEngine :=
  { optimize := fun _ => GrbStatus.infeasible,
    solution := fun _ => ([], 0),
    iisConstr := fun _ _ => false,
    iisLB := fun _ _ => true,
    iisUB := fun _ _ => true }

/-- The bounds-only marking of `c6Engine` is a genuine minimal infeasible
subsystem of `c6State`. -/
theorem c6State_isIIS : IsIIS c6Engine c6State := by
  have hmc : markedConstrs c6Engine c6State = [] := rfl
  have hlb : markedLBs c6Engine c6State = [0] := rfl
  have hub : markedUBs c6Engine c6State = [0] := rfl
  refine ⟨?_, ?_, ?_, ?_⟩
  · rw [hmc, hlb, hub]
    rintro ⟨x, hlen, -, hlbx, hubx⟩
    have h1 : (1 : ℚ) ≤ x.getD 0 0 :=
      hlbx 0 (List.mem_singleton.mpr rfl) 1 rfl
    have h2 : x.getD 0 0 ≤ 0 :=
      hubx 0 (List.mem_singleton.mpr rfl) 0 rfl
    linarith
  · rw [hmc]
    intro c hc
    cases hc
  · rw [hmc, hlb, hub]
    intro i hi
    have hi0 : i = 0 := List.mem_singleton.mp hi
    subst hi0
    refine ⟨[0], rfl, ?_, ?_, ?_⟩
    · intro c hc
      cases hc
    · intro j hj
      simp at hj
    · intro j hj b hb
      have hj0 : j = 0 := List.mem_singleton.mp hj
      subst hj0
      have hb0 : b = 0 := by
        have := hb
        simp [c6State] at this
        exact this.symm
      simp [hb0]
  · rw [hmc, hlb, hub]
    intro i hi
    have hi0 : i = 0 := List.mem_singleton.mp hi
    subst hi0
    refine ⟨[1], rfl, ?_, ?_, ?_⟩
    · intro c hc
      cases hc
    · intro j hj b hb
      have hj0 : j = 0 := List.mem_singleton.mp hj
      subst hj0
      have hb1 : b = 1 := by
        have := hb
        simp [c6State] at this
        exact this.symm
      simp [hb1]
    · intro j hj
      simp at hj

/-- C6, counterexample: a model whose solve reaches the infeasible
status, whose engine marking is a genuine minimal infeasible subsystem —
consisting solely of the two variable bounds — and whose raised error
carries an *empty* list of implicated constraint identifiers: the loop
enumerates `getConstrs()` only and never surfaces bound members. -/
theorem c6_counterexample :
    c6Engine.optimize c6State = GrbStatus.infeasible ∧
    IsIIS c6Engine c6State ∧
    OptGrbModel.solve c6Engine [c6State] { sid := 0, num_cost := 1 }
      = Except.error [] :=
  ⟨rfl, c6State_isIIS, rfl⟩

/-- Session for the C6 witness, the constraint conflict of the spec's
scenario: `x ≤ 0` (`"c1"`) and `x ≥ 1` (`"c2"`, stored as `-x ≤ -1`),
with the harmless default bound `x ≥ 0`. -/
def c6wState : GrbState :=
  { numVars := 1, lb := [some 0], ub := [none],
    constrs := [("c1", [1], 0), ("c2", [-1], -1)] }

/-- Engine for that session: infeasible, `computeIIS` marking exactly the
two conflicting linear rows. -/
def c6wEngine : GrbEngine :=
  { optimize := fun _ => GrbStatus.infeasible,
    solution := fun _ => ([], 0),
    iisConstr := fun _ n => n == "c1" || n == "c2",
    iisLB := fun _ _ => false,
    iisUB := fun _ _ => false }

/-- `dotProd` on singleton lists. -/
theorem dotProd_singleton (a x : ℚ) : dotProd [a] [x] = a * x := by
  simp [dotProd]

/-- The two marked rows of `c6wEngine` form a minimal infeasible
subsystem of `c6wState`. -/
theorem c6wState_isIIS : IsIIS c6wEngine c6wState := by
  have hmc : markedConstrs c6wEngine c6wState
      = [("c1", [1], 0), ("c2", [-1], -1)] := rfl
  have hlb : markedLBs c6wEngine c6wState = [] := rfl
  have hub : markedUBs c6wEngine c6wState = [] := rfl
  refine ⟨?_, ?_, ?_, ?_⟩
  · rw [hmc, hlb, hub]
    rintro ⟨x, hlen, hcs, -, -⟩
    obtain ⟨a, rfl⟩ := List.length_eq_one.mp hlen
    have h1 : dotProd [1] [a] ≤ 0 :=
      hcs ("c1", [1], 0) (List.mem_cons_self _ _)
    have h2 : dotProd [-1] [a] ≤ -1 :=
      hcs ("c2", [-1], -1) (List.mem_cons_of_mem _ (List.mem_singleton.mpr rfl))
    rw [dotProd_singleton] at h1 h2
    linarith
  · rw [hmc, hlb, hub]
    intro c hc
    rcases List.mem_cons.mp hc with hc1 | hc2
    · subst hc1
      have her : ([("c1", [1], 0), ("c2", [-1], -1)] :
          List (String × List ℚ × ℚ)).erase ("c1", [1], 0)
          = [("c2", [-1], -1)] := by decide
      rw [her]
      refine ⟨[1], rfl, ?_, ?_, ?_⟩
      · intro c2 hc2
        have hc2e : c2 = ("c2", [-1], -1) := List.mem_singleton.mp hc2
        subst hc2e
        rw [dotProd_singleton]
        norm_num
      · intro j hj
        simp at hj
      · intro j hj
        simp at hj
    · have hc2e : c = ("c2", [-1], -1) := List.mem_singleton.mp hc2
      subst hc2e
      have her : ([("c1", [1], 0), ("c2", [-1], -1)] :
          List (String × List ℚ × ℚ)).erase ("c2", [-1], -1)
          = [("c1", [1], 0)] := by decide
      rw [her]
      refine ⟨[0], rfl, ?_, ?_, ?_⟩
      · intro c2 hc2
        have hc2e : c2 = ("c1", [1], 0) := List.mem_singleton.mp hc2
        subst hc2e
        rw [dotProd_singleton]
        norm_num
      · intro j hj
        simp at hj
      · intro j hj
        simp at hj
  · rw [hlb]
    intro i hi
    cases hi
  · rw [hub]
    intro i hi
    cases hi

/-- C6 witness: the amended statement applied to the concrete
constraint-conflict model, whose error list `["c1", "c2"]` is non-empty. -/
theorem c6_witness :
    OptGrbModel.solve c6wEngine [c6wState] { sid := 0, num_cost := 1 }
      = Except.error (iisConstrNames c6wEngine c6wState) ∧
    iisConstrNames c6wEngine c6wState ≠ [] := by
  have h := c6_infeasible_raises c6wEngine [c6wState]
    { sid := 0, num_cost := 1 } c6wState rfl rfl c6wState_isIIS
  exact ⟨h.1, h.2.2.1 (by decide)⟩

theorem mem_sortedTimes {df : List ARow} {t : TimeVal} :
    t ∈ sortedTimes df ↔ ∃ r ∈ df, r.time = t := by
  unfold sortedTimes
  rw [(List.perm_insertionSort _ _).mem_iff, mem_uniqueFirst, List.mem_map]

theorem mem_sortedSymbols {df : List ARow} {s : String} :
    s ∈ sortedSymbols df ↔ ∃ r ∈ df, r.symbol = s := by
  unfold sortedSymbols
  rw [(List.perm_insertionSort _ _).mem_iff, mem_uniqueFirst, List.mem_map]

/-- C2, amended: when every cost and feature cell of the listed columns
is present (as on the aligner's gap-free output), every feature pivot has
exactly the cost pivot's row index and column index, `np.stack` succeeds,
and the cost matrix entry at `(i, j)` is the pivoted cost of
`(times[i], symbols[j])` — so `features[t,n,:]` and `costs[t,n]` describe
the same (time, symbol) pair.  (With missing cells this fails: a feature
pivot drops any time at which that feature is entirely missing, and rows
are never reindexed — see the counterexample.) -/
theorem c2_pivot_alignment (df : List ARow) (y : String)
    (x_cols : List String)
    (hall : ∀ r ∈ df, ∀ c ∈ y :: x_cols, (r.vals c).isSome = true) :
    (∀ x ∈ x_cols, pivotRowIndex df x = pivotRowIndex df y ∧
                   pivotColIndex df x = pivotColIndex df y) ∧
    (x_cols ≠ [] →
      ((pivot_features_and_costs df y x_cols).2).isSome = true) ∧
    (∀ i j t s, (pivotRowIndex df y).get? i = some t →
      (pivotColIndex df y).get? j = some s →
      ((costsMatrix df y).get? i).bind (fun row => row.get? j)
        = some ((pivotCell df y t s).getD 0)) := by
  have hrow : ∀ c ∈ y :: x_cols, pivotRowIndex df c = sortedTimes df := by
    intro c hcin
    unfold pivotRowIndex
    apply List.filter_eq_self.mpr
    intro t ht
    rcases mem_sortedTimes.mp ht with ⟨r, hr, rfl⟩
    apply List.any_eq_true.mpr
    refine ⟨r, hr, ?_⟩
    simp [hall r hr c hcin]
  have hcol : ∀ c ∈ y :: x_cols, pivotColIndex df c = sortedSymbols df := by
    intro c hcin
    unfold pivotColIndex
    apply List.filter_eq_self.mpr
    intro s hs
    rcases mem_sortedSymbols.mp hs with ⟨r, hr, rfl⟩
    apply List.any_eq_true.mpr
    refine ⟨r, hr, ?_⟩
    simp [hall r hr c hcin]
  have hymem : y ∈ y :: x_cols := List.mem_cons_self _ _
  refine ⟨?_, ?_, ?_⟩
  · intro x hx
    have hxmem : x ∈ y :: x_cols := List.mem_cons_of_mem _ hx
    exact ⟨(hrow x hxmem).trans (hrow y hymem).symm,
           (hcol x hxmem).trans (hcol y hymem).symm⟩
  · intro hne
    have hshape : sameShape (x_cols.map (fun x => featureMat df y x))
        = true := by
      cases x_cols with
      | nil => exact absurd rfl hne
      | cons x0 xs =>
        unfold sameShape
        simp only [List.map_cons]
        apply List.all_eq_true.mpr
        intro m2 hm2
        rcases List.mem_map.mp hm2 with ⟨x, hx, rfl⟩
        have h1 : (featureMat df y x).length = (sortedTimes df).length := by
          unfold featureMat
          rw [List.length_map,
            hrow x (List.mem_cons_of_mem _ (List.mem_cons_of_mem _ hx))]
        have h2 : (featureMat df y x0).length = (sortedTimes df).length := by
          unfold featureMat
          rw [List.length_map,
            hrow x0 (List.mem_cons_of_mem _ (List.mem_cons_self _ _))]
        simp [h1, h2]
    unfold pivot_features_and_costs
    simp only [hshape, if_true]
    rfl
  · intro i j t s hi hj
    unfold costsMatrix
    rw [List.get?_map, hi]
    simp only [Option.map_some', Option.some_bind]
    rw [List.get?_map, hj]
    simp

/-- Gap-free witness table for the pivot-alignment statement. -/
def c2wdf : List ARow :=
  [⟨⟨1, true⟩, "A", fun _ => some 1⟩, ⟨⟨2, true⟩, "B", fun _ => some 2⟩]

/-- C2 witness: the amended statement applied to a complete table with
one feature column. -/
theorem c2_witness :
    (pivotRowIndex c2wdf "f" = pivotRowIndex c2wdf "y" ∧
     pivotColIndex c2wdf "f" = pivotColIndex c2wdf "y") ∧
    ((pivot_features_and_costs c2wdf "y" ["f"]).2).isSome = true := by
  have h := c2_pivot_alignment c2wdf "y" ["f"] (by decide)
  exact ⟨h.1 "f" (List.mem_singleton.mpr rfl), h.2.1 (by decide)⟩

/-- Table refuting C2 as stated: the feature `"f"` is missing at time 2
(while the cost `"y"` is present there). -/
def c2df : List ARow :=
  [⟨⟨1, true⟩, "A", fun c => if c = "y" then some 1
                             else if c = "f" then some 5 else none⟩,
   ⟨⟨2, true⟩, "A", fun c => if c = "y" then some 2 else none⟩]

/-- C2, counterexample: on `c2df` the feature pivot's row index `[t1]`
differs from the cost pivot's `[t1, t2]` (the pivot drops the time at
which the feature is entirely missing and rows are never reindexed), and
the returned bundle itself is misaligned: the feature tensor has 1 time
row while the cost matrix has 2. -/
theorem c2_counterexample :
    pivotRowIndex c2df "f" ≠ pivotRowIndex c2df "y" ∧
    (pivot_features_and_costs c2df "y" ["f"]).2
      = some ([[[5]]], [[1], [2]], [⟨1, true⟩, ⟨2, true⟩], ["A"]) ∧
    ([[[5]]] : List (List (List ℚ))).length
      ≠ ([[1], [2]] : List (List ℚ)).length := by
  refine ⟨by decide, by decide, by decide⟩

/-- `aggfunc="first"` keeps the first value in input order: when no
earlier row matches the key and the first matching row carries a value,
the aggregated cell is that value. -/
theorem pivotCell_first (l1 : List ARow) (r1 : ARow) (l2 : List ARow)
    (y : String) (t : TimeVal) (s : String) (v : ℚ)
    (hnot : ∀ r ∈ l1, ¬(r.time = t ∧ r.symbol = s))
    (ht : r1.time = t) (hs : r1.symbol = s) (hv : r1.vals y = some v) :
    pivotCell (l1 ++ r1 :: l2) y t s = some v := by
  unfold pivotCell
  rw [List.filter_append]
  have h1 : l1.filter (fun r => decide (r.time = t ∧ r.symbol = s)) = [] :=
    List.filter_eq_nil.mpr (fun r hr => by simpa using hnot r hr)
  rw [h1, List.nil_append,
    List.filter_cons_of_pos (by simp [ht, hs])]
  simp [List.findSome?_cons, hv]

/-- C7: a table with duplicate `(open_time, symbol)` keys makes
`pivot_features_and_costs` print the duplicate warning, and the cost
matrix cell for the duplicated key holds the first value in input order;
construction is never halted (the function still returns its bundle). -/
theorem c7_duplicate_first_occurrence
    (df l1 l2 : List ARow) (r1 : ARow) (y : String) (x_cols : List String)
    (t : TimeVal) (s : String) (v : ℚ) (i j : Nat)
    (hsplit : df = l1 ++ r1 :: l2)
    (hnot : ∀ r ∈ l1, ¬(r.time = t ∧ r.symbol = s))
    (ht : r1.time = t) (hs : r1.symbol = s)
    (hv : r1.vals y = some v)
    (hdup : ∃ r2 ∈ l2, r2.time = t ∧ r2.symbol = s)
    (hi : (pivotRowIndex df y).get? i = some t)
    (hj : (pivotColIndex df y).get? j = some s) :
    (pivot_features_and_costs df y x_cols).1 = true ∧
    ((costsMatrix df y).get? i).bind (fun row => row.get? j) = some v := by
  have hwarn : (pivot_features_and_costs df y x_cols).1 = hasDupKeys df := by
    unfold pivot_features_and_costs
    by_cases hsh : sameShape (x_cols.map (fun x => featureMat df y x)) = true
    · simp [hsh]
    · simp [Bool.of_not_eq_true hsh]
  have hdupkeys : hasDupKeys df = true := by
    rcases hdup with ⟨r2, hr2, hr2t, hr2s⟩
    unfold hasDupKeys
    rw [hsplit, List.map_append, List.map_cons]
    have hk : (r1.time, r1.symbol) = (t, s) := by rw [ht, hs]
    rw [hk]
    apply dupKeysAux_of_append
    exact List.mem_map.mpr ⟨r2, hr2, by rw [hr2t, hr2s]⟩
  have hcell : pivotCell df y t s = some v := by
    rw [hsplit]
    exact pivotCell_first l1 r1 l2 y t s v hnot ht hs hv
  refine ⟨by rw [hwarn, hdupkeys], ?_⟩
  unfold costsMatrix
  rw [List.get?_map, hi]
  simp only [Option.map_some', Option.some_bind]
  rw [List.get?_map, hj]
  simp [hcell]

/-- First duplicated row of the spec's scenario: `(t5, "BTC")` with cost
`0.01`. -/
def c7r1 : ARow :=
  ⟨⟨5, true⟩, "BTC", fun c => if c = "price" then some (1/100) else none⟩

/-- Second duplicated row: `(t5, "BTC")` with cost `0.02`. -/
def c7r2 : ARow :=
  ⟨⟨5, true⟩, "BTC", fun c => if c = "price" then some (2/100) else none⟩

/-- The duplicated table of the scenario. -/
def c7df : List ARow := [c7r1, c7r2]

/-- C7 witness: on the duplicated `(t5, "BTC")` table the warning fires
and the pivot keeps `0.01`, the first occurrence. -/
theorem c7_witness :
    (pivot_features_and_costs c7df "price" ["price"]).1 = true ∧
    ((costsMatrix c7df "price").get? 0).bind (fun row => row.get? 0)
      = some (1/100) :=
  c7_duplicate_first_occurrence c7df [] [c7r2] c7r1 "price" ["price"]
    ⟨5, true⟩ "BTC" (1/100) 0 0 rfl (fun r hr => absurd hr (by simp))
    rfl rfl rfl ⟨c7r2, List.mem_singleton.mpr rfl, rfl, rfl⟩
    (by decide) (by decide)

theorem mem_zipWith_aux {α β γ : Type} (f : α → β → γ) :
    ∀ (l1 : List α) (l2 : List β) (c : γ), c ∈ List.zipWith f l1 l2 →
      ∃ a b, a ∈ l1 ∧ b ∈ l2 ∧ c = f a b := by
  intro l1
  induction l1 with
  | nil => intro l2 c h; cases h
  | cons a tl ih =>
    intro l2 c h
    cases l2 with
    | nil => cases h
    | cons b tl2 =>
      rcases List.mem_cons.mp h with h1 | h1
      · exact ⟨a, b, List.mem_cons_self _ _, List.mem_cons_self _ _, h1⟩
      · rcases ih tl2 c h1 with ⟨a2, b2, ha2, hb2, hc⟩
        exact ⟨a2, b2, List.mem_cons_of_mem _ ha2,
          List.mem_cons_of_mem _ hb2, hc⟩

theorem ffillGo_length (l : List (String → Option ℚ)) :
    ∀ last, (ffillGo last l).length = l.length := by
  induction l with
  | nil => intro last; rfl
  | cons cf rest ih => intro last; simp [ffillGo, ih]

theorem sum_map_const_nat {α : Type} (l : List α) (k : Nat) :
    (l.map (fun _ => k)).sum = l.length * k := by
  induction l with
  | nil => simp
  | cons a tl ih => simp [ih, Nat.succ_mul, Nat.add_comm]

/-- The row block generated by `alignCore` for one symbol. -/
def alignBlock (df1 : List ARow) (fill_method : String) (fill_value : ℚ)
    (all_times : List TimeVal) (s : String) : List ARow :=
  let cells := all_times.map (fun t => obsCell df1 t s)
  let filled := if fill_method = "ffill" then ffillGo (fun _ => none) cells
                else cells
  List.zipWith
    (fun t cf => { time := t, symbol := s,
                   vals := fun c => some ((cf c).getD fill_value) : ARow })
    all_times filled

theorem alignCore_eq (df1 : List ARow) (fm : String) (fv : ℚ) :
    alignCore df1 fm fv =
      sortPanel ((uniqueFirst (df1.map (fun r => r.symbol))).flatMap
        (alignBlock df1 fm fv (uniqueFirst (df1.map (fun r => r.time))))) :=
  rfl

theorem alignBlock_length (df1 : List ARow) (fm : String) (fv : ℚ)
    (ts : List TimeVal) (s : String) :
    (alignBlock df1 fm fv ts s).length = ts.length := by
  unfold alignBlock
  by_cases h : fm = "ffill"
  · simp [h, ffillGo_length]
  · simp [h]

theorem mem_alignBlock (df1 : List ARow) (fm : String) (fv : ℚ)
    (ts : List TimeVal) (s : String) (r : ARow)
    (h : r ∈ alignBlock df1 fm fv ts s) :
    ∃ (t : TimeVal) (cf : String → Option ℚ), t ∈ ts ∧
      r = ({ time := t, symbol := s,
             vals := fun c => some ((cf c).getD fv) } : ARow) := by
  unfold alignBlock at h
  rcases mem_zipWith_aux _ _ _ _ h with ⟨t, cf, ht, _, hr⟩
  exact ⟨t, cf, ht, hr⟩

/-- C5, amended: on a table whose `(timestamp, symbol)` keys are unique,
`align_time_series_fast` returns (never raises) a panel with exactly
`|distinct timestamps| · |distinct symbols|` rows, sorted by
`(symbol, timestamp)`, with every cell resolved; on a duplicated key the
pandas `reindex` raises instead (see the counterexample). -/
theorem c5_unique_keys_full_grid (df : List ARow) (fv : ℚ)
    (hnodup : hasDupKeys (coerceTimes df) = false) :
    ∃ p, (align_time_series_fast df "ffill" fv).1 = Except.ok p ∧
      p.length
        = (uniqueFirst ((coerceTimes df).map (fun r => r.time))).length
        * (uniqueFirst ((coerceTimes df).map (fun r => r.symbol))).length ∧
      p.Pairwise panelLE ∧
      ∀ r ∈ p, ∀ c, (r.vals c).isSome = true := by
  refine ⟨alignCore (coerceTimes df) "ffill" fv, ?_, ?_, ?_, ?_⟩
  · unfold align_time_series_fast
    simp [hnodup]
  · rw [alignCore_eq]
    have hperm := List.perm_insertionSort panelLE
      ((uniqueFirst ((coerceTimes df).map (fun r => r.symbol))).flatMap
        (alignBlock (coerceTimes df) "ffill" fv
          (uniqueFirst ((coerceTimes df).map (fun r => r.time)))))
    rw [sortPanel, hperm.length_eq, List.length_flatMap]
    have hmap : ∀ s, (alignBlock (coerceTimes df) "ffill" fv
        (uniqueFirst ((coerceTimes df).map (fun r => r.time))) s).length
        = (uniqueFirst ((coerceTimes df).map (fun r => r.time))).length :=
      fun s => alignBlock_length _ _ _ _ s
    calc ((uniqueFirst ((coerceTimes df).map (fun r => r.symbol))).map
            (fun s => (alignBlock (coerceTimes df) "ffill" fv
              (uniqueFirst ((coerceTimes df).map (fun r => r.time))) s).length)).sum
        = ((uniqueFirst ((coerceTimes df).map (fun r => r.symbol))).map
            (fun _ => (uniqueFirst ((coerceTimes df).map (fun r => r.time))).length)).sum := by
          congr 1
          exact List.map_congr_left (fun s _ => hmap s)
      _ = (uniqueFirst ((coerceTimes df).map (fun r => r.symbol))).length
          * (uniqueFirst ((coerceTimes df).map (fun r => r.time))).length :=
          sum_map_const_nat _ _
      _ = _ := Nat.mul_comm _ _
  · rw [alignCore_eq]
    exact List.sorted_insertionSort panelLE _
  · intro r hr c
    rw [alignCore_eq, sortPanel] at hr
    have hr2 := (List.perm_insertionSort panelLE _).mem_iff.mp hr
    rcases List.mem_flatMap.mp hr2 with ⟨s, _, hblock⟩
    rcases mem_alignBlock _ _ _ _ _ _ hblock with ⟨t, cf, _, rfl⟩
    rfl

/-- A no-duplicate one-row witness table. -/
def c5wdf : List ARow := [⟨⟨1, false⟩, "A", fun _ => some 1⟩]

/-- C5 witness: the unique-key statement applied to the one-row table. -/
theorem c5_witness :
    ∃ p, (align_time_series_fast c5wdf "ffill" 0).1 = Except.ok p ∧
      p.length
        = (uniqueFirst ((coerceTimes c5wdf).map (fun r => r.time))).length
        * (uniqueFirst ((coerceTimes c5wdf).map (fun r => r.symbol))).length ∧
      p.Pairwise panelLE ∧
      ∀ r ∈ p, ∀ c, (r.vals c).isSome = true :=
  c5_unique_keys_full_grid c5wdf 0 (by decide)

/-- A duplicated-key table: two rows share the key `(t1, "A")`. -/
def c5df : List ARow :=
  [⟨⟨1, true⟩, "A", fun _ => some 1⟩, ⟨⟨1, true⟩, "A", fun _ => some 2⟩]

/-- C5, counterexample: on the duplicated table the call raises (the
pandas `reindex` of a duplicate-labelled index) instead of returning a
panel — refuting "never rejects or raises, including duplicates". -/
theorem c5_counterexample :
    hasDupKeys (coerceTimes c5df) = true ∧
    (align_time_series_fast c5df "ffill" 0).1 = Except.error () :=
  ⟨by decide, rfl⟩

/-- C10: `align_time_series_fast` mutates its input — after every call
the caller's table is the coerced one (`open_time` overwritten in place
by `pd.to_datetime` before alignment, also on the error path), and there
are tables the call therefore does not leave unchanged. -/
theorem c10_align_mutates_input (df : List ARow) (fm : String) (fv : ℚ) :
    (align_time_series_fast df fm fv).2 = coerceTimes df ∧
    ∃ df0 : List ARow, coerceTimes df0 ≠ df0 := by
  constructor
  · unfold align_time_series_fast
    by_cases h : hasDupKeys (coerceTimes df) = true
    · simp [h]
    · simp [h]
  · refine ⟨[⟨⟨0, false⟩, "A", fun _ => none⟩], fun heq => ?_⟩
    have h2 := congrArg (fun l => l.map (fun r : ARow => r.time.isDatetime))
      heq
    simp [coerceTimes, TimeVal.to_datetime] at h2

/-- Cell function holding `v` in the single data column `"v"`. -/
def cellsOf (v : ℚ) : String → Option ℚ :=
  fun c => if c = "v" then some v else none

/-- The failing input for the no-lookahead claim: symbol `A` observed at
times 3 and 1 (values 30 and 10), symbol `B` at time 2 — the timestamps
do *not* appear in chronological order. -/
def c4df : List ARow :=
  [⟨⟨3, true⟩, "A", cellsOf 30⟩, ⟨⟨2, true⟩, "B", cellsOf 5⟩,
   ⟨⟨1, true⟩, "A", cellsOf 10⟩]

/-- C4, evaluation at the failing input: the aligned panel's cell for
`(t2, A)` is `30` — the value observed at the *later* time `t3` — and not
`10`, the only observation of `A` at a time `≤ t2`.  The forward fill
runs along the first-appearance order of the distinct timestamps
(`[3, 2, 1]` here), so an input that is not sorted by time is filled from
the future, contradicting the no-lookahead contract. -/
theorem c4_lookahead_eval :
    ((align_time_series_fast c4df "ffill" 0).1.toOption.map
      (fun p => panelCell p ⟨2, true⟩ "A" "v")) = some (some 30) ∧
    ¬ ((align_time_series_fast c4df "ffill" 0).1.toOption.map
      (fun p => panelCell p ⟨2, true⟩ "A" "v")) = some (some 10) := by
  exact ⟨by decide, by decide⟩

theorem mem_zipWith_zip {α β γ : Type} (f : α → β → γ) :
    ∀ (l1 : List α) (l2 : List β) (c : γ), c ∈ List.zipWith f l1 l2 →
      ∃ p ∈ List.zip l1 l2, c = f p.1 p.2 := by
  intro l1
  induction l1 with
  | nil => intro l2 c h; cases h
  | cons a tl ih =>
    intro l2 c h
    cases l2 with
    | nil => cases h
    | cons b tl2 =>
      rcases List.mem_cons.mp h with h1 | h1
      · exact ⟨(a, b), List.mem_cons_self _ _, h1⟩
      · rcases ih tl2 c h1 with ⟨p, hp, hc⟩
        exact ⟨p, List.mem_cons_of_mem _ hp, hc⟩

/-- Provenance of a forward-filled cell: along one symbol's sequence of
grid cells (ordered by the time list), every filled value comes either
from the incoming carry or from an observation of *this* symbol at a
position earlier or equal in the list — with a time `≤` the cell's time
whenever the time list is sorted. -/
theorem ffill_no_lookahead_aux (df1 : List ARow) (s : String) :
    ∀ (ts : List TimeVal) (last : String → Option ℚ),
      ts.Pairwise timeLE →
      ∀ p ∈ List.zip ts (ffillGo last (ts.map (fun t => obsCell df1 t s))),
        ∀ c v, p.2 c = some v →
          last c = some v ∨
          ∃ t2, t2 ∈ ts ∧ t2.val ≤ p.1.val ∧
            obsCell df1 t2 s c = some v := by
  intro ts
  induction ts with
  | nil => intro last _ p hp; cases hp
  | cons t rest ih =>
    intro last hpw p hp c v hv
    rcases List.pairwise_cons.mp hpw with ⟨hhead, htail⟩
    simp only [List.map_cons, ffillGo, List.zip_cons_cons] at hp
    rcases List.mem_cons.mp hp with h1 | h1
    · subst h1
      simp only at hv
      rcases hobs : obsCell df1 t s c with _ | w
      · rw [hobs] at hv
        exact Or.inl hv
      · rw [hobs] at hv
        simp only at hv
        exact Or.inr ⟨t, List.mem_cons_self _ _, Nat.le_refl _, by
          rw [hobs, hv]⟩
    · have hz := ih _ htail p h1 c v hv
      rcases hz with hz | ⟨t2, ht2, hle, hobs2⟩
      · rcases hobs : obsCell df1 t s c with _ | w
        · rw [hobs] at hz
          exact Or.inl hz
        · rw [hobs] at hz
          simp only at hz
          have hmem : p.1 ∈ rest := (List.of_mem_zip h1).1
          exact Or.inr ⟨t, List.mem_cons_self _ _, hhead p.1 hmem, by
            rw [hobs, hz]⟩
      · exact Or.inr ⟨t2, List.mem_cons_of_mem _ ht2, hle, hobs2⟩

/-- C4, positive boundary: when the distinct timestamps of the (coerced)
input appear in chronological order, forward fill is sound — every filled
panel cell is either the default `fill_value` or an actual observation of
the *same* symbol at a time `≤` the cell's time (never another symbol's
history, never a later timestamp).  This locates the bug precisely: the
fill order is the timestamps' first-appearance order, not their
chronological order, so only chronologically ordered inputs are safe. -/
theorem align_no_lookahead_of_sorted (df : List ARow) (fv : ℚ)
    (r : ARow) (c : String) (v : ℚ)
    (hsorted : (uniqueFirst ((coerceTimes df).map
      (fun r2 => r2.time))).Pairwise timeLE)
    (hr : r ∈ alignCore (coerceTimes df) "ffill" fv)
    (hv : r.vals c = some v) :
    v = fv ∨ ∃ row ∈ df, row.symbol = r.symbol ∧
      row.time.val ≤ r.time.val ∧ row.vals c = some v := by
  rw [alignCore_eq, sortPanel] at hr
  have hr2 := (List.perm_insertionSort panelLE _).mem_iff.mp hr
  rcases List.mem_flatMap.mp hr2 with ⟨s, _, hblock⟩
  unfold alignBlock at hblock
  simp only [if_pos rfl] at hblock
  rcases mem_zipWith_zip _ _ _ _ hblock with ⟨p, hp, hrp⟩
  subst hrp
  simp only at hv
  rcases hcf : p.2 c with _ | w
  · rw [hcf] at hv
    simp only [Option.getD_none] at hv
    injection hv with hv
    exact Or.inl hv.symm
  · rw [hcf] at hv
    simp only [Option.getD_some] at hv
    injection hv with hv
    subst hv
    have haux := ffill_no_lookahead_aux (coerceTimes df) s _ _ hsorted p hp
      c w hcf
    rcases haux with haux | ⟨t2, _, hle, hobs⟩
    · cases haux
    · unfold obsCell at hobs
      rcases Option.bind_eq_some.mp hobs with ⟨row, hfind, hrowv⟩
      have hrowmem := List.mem_of_find?_eq_some hfind
      have hpred := List.find?_some hfind
      have hts : row.time = t2 ∧ row.symbol = s := by
        simpa using hpred
      rcases List.mem_map.mp hrowmem with ⟨orig, horig, horigeq⟩
      refine Or.inr ⟨orig, horig, ?_, ?_, ?_⟩
      · have : orig.symbol = row.symbol := by rw [← horigeq]
        rw [this, hts.2]
      · have hov : orig.time.val = row.time.val := by rw [← horigeq]; rfl
        rw [hov, hts.1]
        exact hle
      · have : orig.vals = row.vals := by rw [← horigeq]
        rw [this]
        exact hrowv
